import Mathlib

/-!
Verification of the enumset bitset core.

An `EnumSet<T>` is a single backing unsigned integer of width `w` (8/16/32/64/128),
together with a per-enumeration constant mask `ALL_BITS` marking the valid bit
positions.  We embed backing values as `Nat` together with an explicit width `w`;
machine arithmetic that can wrap is written with an explicit `% 2 ^ w`.  An enum
value is embedded as its bit index (a `Nat` `i` with `Nat.testBit mask i = true`,
per the enum/bit-index contract).

The representation layer (`repr.rs`, the `EnumSetTypeRepr` implementations) is not
part of the sources; those operations are modelled from the spec, as marked on each
definition.  Everything in the `EnumSet`, `Legacy` and iterator sections is a direct
translation of `enumset/src/lib.rs` resp. `src/lib.rs`.
-/

/-- Modelled from the spec: `repr.rs` is absent; bitwise NOT of a `w`-bit unsigned
integer (`!a` in the source), i.e. the one's complement `2 ^ w - 1 - a` of `a < 2 ^ w`. -/
def reprNot (w a : Nat) : Nat := 2 ^ w - 1 - a

/-- Modelled from the spec: `and_not(other)` of the representation interface,
`self & !other` on `w`-bit integers. -/
def andNot (w a b : Nat) : Nat := a &&& reprNot w b

/-- Modelled from the spec: `count_ones()`, the population count of a `w`-bit
integer.  The first argument is structural fuel; `countOnes f n` is the population
count of `n` whenever `n < 2 ^ f`. -/
def countOnes : Nat → Nat → Nat
  | 0, _ => 0
  | f + 1, n => n % 2 + countOnes f (n / 2)

/-- Position of the lowest set bit of `n` (fuel-indexed; exact for `0 < n < 2 ^ f`). -/
def lowBitAux : Nat → Nat → Nat
  | 0, _ => 0
  | f + 1, n => if n % 2 = 1 then 0 else lowBitAux f (n / 2) + 1

/-- Modelled from the spec: `trailing_zeros()` of a `w`-bit integer; on an all-zero
value it returns the width of the type. -/
def trailingZeros (w n : Nat) : Nat := if n = 0 then w else lowBitAux w n

/-- Position of the highest set bit of `n` (fuel-indexed; exact for `0 < n < 2 ^ f`). -/
def highBitAux : Nat → Nat → Nat
  | 0, _ => 0
  | f + 1, n => if n < 2 then 0 else highBitAux f (n / 2) + 1

/-- Modelled from the spec: `leading_zeros()` of a `w`-bit integer; on an all-zero
value it returns the width of the type. -/
def leadingZeros (w n : Nat) : Nat := if n = 0 then w else w - 1 - highBitAux w n

/-- `a.wrapping_sub(b)` on `w`-bit integers: subtraction modulo `2 ^ w`
(for `a, b < 2 ^ w`). -/
def wrappingSub (w a b : Nat) : Nat := (a + (2 ^ w - b)) % 2 ^ w

/-- Modelled from the spec: the exact (checked) conversion of the representation
interface towards a narrower integer width `n` (`to_*_opt`): `none` when the value
does not fit. -/
def toWidthOpt (n v : Nat) : Option Nat := if v < 2 ^ n then some v else none

/-- Modelled from the spec: the truncating conversion towards width `n` (`to_*`):
bits that do not fit are silently discarded. -/
def toWidthTrunc (n v : Nat) : Nat := v % 2 ^ n

/-- Modelled from the spec: the exact (checked) import of a foreign integer into the
backing width `w` (`from_*_opt`): `none` when the value does not fit. -/
def fromWidthOpt (w b : Nat) : Option Nat := if b < 2 ^ w then some b else none

/-- Modelled from the spec: the truncating import of a foreign integer into the
backing width `w` (`from_*`). -/
def fromWidthTrunc (w b : Nat) : Nat := b % 2 ^ w

namespace EnumSet

/-- `EnumSet::new()` / `EnumSet::empty()`: the zero backing value. -/
def new : Nat := 0

/-- `EnumSet::all()`: backing value `T::ALL_BITS`. -/
def all (mask : Nat) : Nat := mask

/-- `EnumSet::bit_width()`: `T::Repr::WIDTH - T::ALL_BITS.leading_zeros()`. -/
def bitWidth (w mask : Nat) : Nat := w - leadingZeros w mask

/-- `EnumSet::variant_count()`: `T::ALL_BITS.count_ones()`. -/
def variantCount (w mask : Nat) : Nat := countOnes w mask

/-- `EnumSet::len()`: `self.__priv_repr.count_ones()`. -/
def len (w s : Nat) : Nat := countOnes w s

/-- `EnumSet::is_empty()`. -/
def isEmpty (s : Nat) : Bool := s == 0

/-- `EnumSet::contains(value)`: `self.__priv_repr.has_bit(value.enum_into_u32())`. -/
def contains (s i : Nat) : Bool := Nat.testBit s i

/-- `Repr::add_bit(pos)` as used by `insert`: set the bit at position `i`. -/
def addBit (s i : Nat) : Nat := s ||| (1 <<< i)

/-- `Repr::remove_bit(pos)` as used by `remove`: clear the bit at position `i`
(`self & !(1 << pos)` on `w`-bit integers). -/
def removeBit (w s i : Nat) : Nat := andNot w s (1 <<< i)

/-- `EnumSet::insert(value)`: records `!self.contains(value)`, then sets the bit;
returns the pair (returned bool, new backing value). -/
def insert (s i : Nat) : Bool × Nat := (!contains s i, addBit s i)

/-- `EnumSet::remove(value)`: records `self.contains(value)`, then clears the bit;
returns the pair (returned bool, new backing value). -/
def remove (w s i : Nat) : Bool × Nat := (contains s i, removeBit w s i)

/-- `EnumSet::insert_all(other)`: `self.__priv_repr | other.__priv_repr`. -/
def insertAll (s o : Nat) : Nat := s ||| o

/-- `EnumSet::remove_all(other)`: `self.__priv_repr.and_not(other.__priv_repr)`. -/
def removeAll (w s o : Nat) : Nat := andNot w s o

/-- `EnumSet::clear()`. -/
def clear : Nat := 0

/-- `EnumSet::union(other)`. -/
def union (s o : Nat) : Nat := s ||| o

/-- `EnumSet::intersection(other)`. -/
def intersection (s o : Nat) : Nat := s &&& o

/-- `EnumSet::difference(other)`: `self.__priv_repr.and_not(other.__priv_repr)`. -/
def difference (w s o : Nat) : Nat := andNot w s o

/-- `EnumSet::symmetrical_difference(other)`. -/
def symmetricalDifference (s o : Nat) : Nat := s ^^^ o

/-- `EnumSet::complement()`: `!self.__priv_repr & Self::all_bits()`. -/
def complement (w mask s : Nat) : Nat := reprNot w s &&& all mask

/-- `EnumSet::try_from_repr(bits)`: `Some` iff `bits.and_not(mask).is_empty()`. -/
def tryFromRepr (w mask bits : Nat) : Option Nat :=
  if andNot w bits (all mask) = 0 then some bits else none

/-- `EnumSet::from_repr(bits)`: `Self::try_from_repr(bits).expect(…)`; the panic is
modelled as `none`. -/
def fromRepr (w mask bits : Nat) : Option Nat := tryFromRepr w mask bits

/-- `EnumSet::from_repr_truncated(bits)`: `bits & Self::all().as_repr()`. -/
def fromReprTruncated (mask bits : Nat) : Nat := bits &&& all mask

/-- `EnumSet::try_as_uN()` (the `$try_to` functions): checked export towards
width `n`. -/
def tryTo (n s : Nat) : Option Nat := toWidthOpt n s

/-- `EnumSet::as_uN()` (the `$to` functions): `self.$try_to().expect(…)`; the panic
is modelled as `none`. -/
def asNum (n s : Nat) : Option Nat := tryTo n s

/-- `EnumSet::as_uN_truncated()` (the `$to_truncated` functions). -/
def asNumTruncated (n s : Nat) : Nat := toWidthTrunc n s

/-- `EnumSet::try_from_uN(bits)` (the `$try_from` functions): checked import of an
`n`-bit integer, then rejection of bits outside the mask. -/
def tryFromNum (w mask bits : Nat) : Option Nat :=
  (fromWidthOpt w bits).bind fun b =>
    if andNot w b (all mask) = 0 then some b else none

/-- `EnumSet::from_uN(bits)` (the `$from` functions): `Self::$try_from(bits).expect(…)`;
the panic is modelled as `none`. -/
def fromNum (w mask bits : Nat) : Option Nat := tryFromNum w mask bits

/-- `EnumSet::from_uN_truncated(bits)` (the `$from_truncated` functions):
`bits & Self::all().$to_truncated()` imported with the truncating conversion. -/
def fromNumTruncated (w mask n bits : Nat) : Nat :=
  fromWidthTrunc w (bits &&& asNumTruncated n (all mask))

end EnumSet

/-- The valid-bits invariant of the claim: the backing value is a `w`-bit integer
with zero bits outside the mask, expressed with the source's own emptiness test
`s.and_not(mask).is_empty()`. -/
abbrev ValidBits (w mask s : Nat) : Prop := s < 2 ^ w ∧ andNot w s mask = 0

/-- The public non-unsafe operations of claim C1, each applied to the current set:
arguments that are enum values carry a bit index, arguments that are sets or raw
integers carry a backing value. -/
inductive PubOp where
  | insertV (i : Nat)
  | removeV (i : Nat)
  | insertAllS (o : Nat)
  | removeAllS (o : Nat)
  | clearS
  | unionS (o : Nat)
  | intersectionS (o : Nat)
  | differenceS (o : Nat)
  | symDiffS (o : Nat)
  | complementS
  | fromTruncS (b : Nat)
  | tryFromS (b : Nat)

/-- Interpretation of one public operation on the current backing value `s`
(for the checked construction, a rejected input leaves the set unchanged). -/
def applyOp (w mask s : Nat) : PubOp → Nat
  | .insertV i => (EnumSet.insert s i).2
  | .removeV i => (EnumSet.remove w s i).2
  | .insertAllS o => EnumSet.insertAll s o
  | .removeAllS o => EnumSet.removeAll w s o
  | .clearS => EnumSet.clear
  | .unionS o => EnumSet.union s o
  | .intersectionS o => EnumSet.intersection s o
  | .differenceS o => EnumSet.difference w s o
  | .symDiffS o => EnumSet.symmetricalDifference s o
  | .complementS => EnumSet.complement w mask s
  | .fromTruncS b => EnumSet.fromReprTruncated mask b
  | .tryFromS b => (EnumSet.tryFromRepr w mask b).getD s

/-- Well-formedness of an operation's argument: enum values are valid variants
(bit set in the mask), set arguments satisfy the invariant themselves, raw-integer
arguments are `w`-bit machine integers. -/
def opValid (w mask : Nat) : PubOp → Prop
  | .insertV i => Nat.testBit mask i = true
  | .removeV i => Nat.testBit mask i = true
  | .insertAllS o => ValidBits w mask o
  | .removeAllS o => ValidBits w mask o
  | .clearS => True
  | .unionS o => ValidBits w mask o
  | .intersectionS o => ValidBits w mask o
  | .differenceS o => ValidBits w mask o
  | .symDiffS o => ValidBits w mask o
  | .complementS => True
  | .fromTruncS b => b < 2 ^ w
  | .tryFromS b => b < 2 ^ w

instance (w mask : Nat) (op : PubOp) : Decidable (opValid w mask op) := by
  unfold opValid; cases op <;> infer_instance

namespace Legacy

/-- Legacy `EnumSet::mask(bit)` of `src/lib.rs`: `T::ONE << bit`. -/
def maskBit (b : Nat) : Nat := 1 <<< b

/-- Legacy `EnumSet::has_bit(bit)`: `self.0 & mask == mask`. -/
def hasBit (s b : Nat) : Bool := (s &&& maskBit b) == maskBit b

/-- Legacy `EnumSet::contains(value)`. -/
def contains (s v : Nat) : Bool := hasBit s v

/-- Legacy `EnumSet::insert(value)` of `src/lib.rs`: records `self.contains(value)`
(presence before the call), then `self.0 |= mask`; returns (returned bool, new value). -/
def insert (s v : Nat) : Bool × Nat := (contains s v, s ||| maskBit v)

/-- Legacy `EnumSet::remove(value)` of `src/lib.rs`: records `self.contains(value)`,
then `self.0 &= !mask` on the `w`-bit representation. -/
def remove (w s v : Nat) : Bool × Nat := (contains s v, s &&& reprNot w (maskBit v))

end Legacy

/-- `EnumSetIter` state: the private copy `self.set` of the set being iterated. -/
def enumSetIterNew (s : Nat) : Nat := s

/-- `EnumSetIter::next()`: `None` on the empty copy, otherwise extract and clear the
lowest set bit and yield its position (the enum value `T::enum_from_u32(bit)`). -/
def enumSetIterNext (w s : Nat) : Option Nat × Nat :=
  if s = 0 then (none, s)
  else
    let bit := trailingZeros w s
    (some bit, EnumSet.removeBit w s bit)

/-- `EnumSetIter::next_back()`: extract and clear the highest set bit
(`T::Repr::WIDTH - 1 - leading_zeros`). -/
def enumSetIterNextBack (w s : Nat) : Option Nat × Nat :=
  if s = 0 then (none, s)
  else
    let bit := w - 1 - leadingZeros w s
    (some bit, EnumSet.removeBit w s bit)

/-- `EnumSetIter::size_hint()`: `(self.set.len(), Some(self.set.len()))`. -/
def sizeHint (w s : Nat) : Nat × Option Nat := (EnumSet.len w s, some (EnumSet.len w s))

/-- The list of values yielded by up to `f` calls of `EnumSetIter::next()`. -/
def enumSetIterRun (w : Nat) : Nat → Nat → List Nat
  | 0, _ => []
  | f + 1, s =>
    match enumSetIterNext w s with
    | (none, _) => []
    | (some b, t) => b :: enumSetIterRun w f t

/-- The list of values yielded by up to `f` calls of `EnumSetIter::next_back()`. -/
def enumSetIterRunBack (w : Nat) : Nat → Nat → List Nat
  | 0, _ => []
  | f + 1, s =>
    match enumSetIterNextBack w s with
    | (none, _) => []
    | (some b, t) => b :: enumSetIterRunBack w f t

/-- The iterator state after `k` calls of `EnumSetIter::next()`. -/
def enumSetIterStateAfter (w : Nat) : Nat → Nat → Nat
  | 0, s => s
  | k + 1, s => enumSetIterStateAfter w k (enumSetIterNext w s).2

/-- `EnumSetSubsetIter`: the target set, the next candidate, and the completion flag. -/
structure EnumSetSubsetIter where
  set : Nat
  next : Nat
  done : Bool
deriving DecidableEq

/-- `EnumSet::subsets()` / `EnumSetSubsetIter::new(set)`. -/
def subsetIterNew (s : Nat) : EnumSetSubsetIter := ⟨s, 0, false⟩

/-- `EnumSetSubsetIter::next()`: yield `self.next`, advance by the carry-rippler
step `current.wrapping_sub(set) & set`, and set `done` when the computed candidate
is zero. -/
def subsetIterNext (w : Nat) (it : EnumSetSubsetIter) : Option Nat × EnumSetSubsetIter :=
  if it.done then (none, it)
  else
    let current := it.next
    let nxt := wrappingSub w current it.set &&& it.set
    (some current, ⟨it.set, nxt, nxt == 0⟩)

/-- The list of sets yielded by up to `f` calls of `EnumSetSubsetIter::next()`. -/
def subsetIterRun (w : Nat) : Nat → EnumSetSubsetIter → List Nat
  | 0, _ => []
  | f + 1, it =>
    match subsetIterNext w it with
    | (none, _) => []
    | (some x, it') => x :: subsetIterRun w f it'

/-- The subset-iterator state after `k` calls of `EnumSetSubsetIter::next()`. -/
def subsetIterStateAfter (w : Nat) : Nat → EnumSetSubsetIter → EnumSetSubsetIter
  | 0, it => it
  | k + 1, it => subsetIterStateAfter w k (subsetIterNext w it).2

/-- Bit deposit: `pdepAux f s j` places the low bits of `j` at the positions of the
set bits of `s` (lowest first), scanning `f` bit positions.  `pdepAux w s j` is the
`j`-th smallest submask of `s` for `s < 2 ^ w` and `j < 2 ^ popcount s`. -/
def pdepAux : Nat → Nat → Nat → Nat
  | 0, _, _ => 0
  | f + 1, s, j =>
    if s % 2 = 1 then j % 2 + 2 * pdepAux f (s / 2) (j / 2)
    else 2 * pdepAux f (s / 2) j

/-! ### Basic facts about the modelled representation operations -/

theorem reprNot_lt (w a : Nat) : reprNot w a < 2 ^ w := by
  have : 0 < 2 ^ w := Nat.pos_pow_of_pos w (by omega)
  unfold reprNot; omega

theorem testBit_reprNot (w : Nat) : ∀ a i, a < 2 ^ w →
    (reprNot w a).testBit i = (decide (i < w) && !a.testBit i) := by
  induction w with
  | zero =>
    intro a i ha
    have : a = 0 := by omega
    subst this
    simp [reprNot]
  | succ w ih =>
    intro a i ha
    have h2 : 2 ^ (w + 1) = 2 * 2 ^ w := by rw [Nat.pow_succ]; ring
    have hmod : reprNot (w + 1) a % 2 = 1 - a % 2 := by unfold reprNot; omega
    have hdiv : reprNot (w + 1) a / 2 = reprNot w (a / 2) := by unfold reprNot; omega
    cases i with
    | zero =>
      rw [Nat.testBit_zero, Nat.testBit_zero, hmod]
      rcases Nat.mod_two_eq_zero_or_one a with h | h <;> simp [h]
    | succ i =>
      rw [Nat.testBit_succ, Nat.testBit_succ, hdiv, ih (a / 2) i (by omega)]
      have : i < w ↔ i + 1 < w + 1 := by omega
      by_cases hi : i < w <;> simp [hi, this.symm]

theorem testBit_andNot (w a b i : Nat) (hb : b < 2 ^ w) :
    (andNot w a b).testBit i = (a.testBit i && (decide (i < w) && !b.testBit i)) := by
  unfold andNot
  rw [Nat.testBit_land, testBit_reprNot w b i hb]

theorem testBit_high_false {w a i : Nat} (ha : a < 2 ^ w) (hi : w ≤ i) :
    a.testBit i = false :=
  Nat.testBit_lt_two_pow (Nat.lt_of_lt_of_le ha (Nat.pow_le_pow_right (by omega) hi))

theorem testBit_true_lt {w a i : Nat} (ha : a < 2 ^ w) (h : a.testBit i = true) : i < w := by
  by_contra hge
  rw [testBit_high_false ha (by omega)] at h
  exact Bool.false_ne_true h

theorem andNot_eq_zero_iff {w a b : Nat} (ha : a < 2 ^ w) (hb : b < 2 ^ w) :
    andNot w a b = 0 ↔ ∀ i, a.testBit i = true → b.testBit i = true := by
  constructor
  · intro h i hai
    have hi : i < w := testBit_true_lt ha hai
    have := congrArg (Nat.testBit · i) h
    simp only [Nat.zero_testBit] at this
    rw [testBit_andNot w a b i hb, hai] at this
    simpa [hi] using this
  · intro h
    apply Nat.eq_of_testBit_eq
    intro i
    rw [Nat.zero_testBit, testBit_andNot w a b i hb]
    by_cases hai : a.testBit i = true
    · simp [hai, h i hai]
    · simp [Bool.eq_false_iff.2 hai]

theorem lor_two_pow_lt {w s i : Nat} (hs : s < 2 ^ w) (hi : i < w) :
    s ||| 2 ^ i < 2 ^ w :=
  Nat.or_lt_two_pow hs (Nat.pow_lt_pow_right (by omega) hi)

theorem land_le_left_lt {w a : Nat} (b : Nat) (ha : a < 2 ^ w) : a &&& b < 2 ^ w := by
  apply Nat.lt_pow_two_of_testBit
  intro i hi
  rw [Nat.testBit_land, testBit_high_false ha hi, Bool.false_and]

theorem subset_of_land_eq {a b : Nat}
    (h : ∀ i, a.testBit i = true → b.testBit i = true) : a &&& b = a := by
  apply Nat.eq_of_testBit_eq
  intro i
  rw [Nat.testBit_land]
  by_cases hai : a.testBit i = true
  · simp [hai, h i hai]
  · simp [Bool.eq_false_iff.2 hai]

theorem lt_pow_of_subset {w a b : Nat} (hb : b < 2 ^ w)
    (h : ∀ i, a.testBit i = true → b.testBit i = true) : a < 2 ^ w := by
  apply Nat.lt_pow_two_of_testBit
  intro i hi
  by_contra hne
  have hai : a.testBit i = true := by
    cases hcase : a.testBit i
    · exact absurd hcase hne
    · rfl
  exact absurd (h i hai) (by rw [testBit_high_false hb hi]; exact Bool.false_ne_true)

theorem one_shiftLeft_eq (i : Nat) : (1 <<< i : Nat) = 2 ^ i := by
  rw [Nat.shiftLeft_eq, Nat.one_mul]

theorem testBit_addBit (s i j : Nat) :
    (EnumSet.addBit s i).testBit j = (s.testBit j || decide (i = j)) := by
  unfold EnumSet.addBit
  rw [one_shiftLeft_eq, Nat.testBit_lor, Nat.testBit_two_pow]

theorem testBit_removeBit {w i : Nat} (s j : Nat) (hi : i < w) :
    (EnumSet.removeBit w s i).testBit j
      = (s.testBit j && (decide (j < w) && !decide (i = j))) := by
  unfold EnumSet.removeBit
  rw [one_shiftLeft_eq, testBit_andNot w s (2 ^ i) j (Nat.pow_lt_pow_right (by omega) hi),
    Nat.testBit_two_pow]

theorem testBit_removeBit_bounded {w s i : Nat} (j : Nat) (hs : s < 2 ^ w) (hi : i < w) :
    (EnumSet.removeBit w s i).testBit j = (s.testBit j && !decide (i = j)) := by
  rw [testBit_removeBit s j hi]
  by_cases hj : j < w
  · simp [hj]
  · rw [testBit_high_false hs (by omega)]
    simp

theorem validBits_iff {w mask s : Nat} (hm : mask < 2 ^ w) :
    ValidBits w mask s ↔
      (s < 2 ^ w ∧ ∀ i, s.testBit i = true → mask.testBit i = true) := by
  constructor
  · rintro ⟨h1, h2⟩
    exact ⟨h1, (andNot_eq_zero_iff h1 hm).1 h2⟩
  · rintro ⟨h1, h2⟩
    exact ⟨h1, (andNot_eq_zero_iff h1 hm).2 h2⟩

theorem validBits_new (w mask : Nat) : ValidBits w mask EnumSet.new :=
  ⟨Nat.pos_pow_of_pos w (by omega), by simp [andNot, EnumSet.new]⟩

theorem validBits_applyOp {w mask s : Nat} (hm : mask < 2 ^ w)
    (hs : ValidBits w mask s) (op : PubOp) (hop : opValid w mask op) :
    ValidBits w mask (applyOp w mask s op) := by
  rw [validBits_iff hm] at hs
  obtain ⟨hlt, hsub⟩ := hs
  rw [validBits_iff hm]
  cases op with
  | insertV i =>
    simp only [opValid] at hop
    simp only [applyOp, EnumSet.insert]
    have hiw : i < w := testBit_true_lt hm hop
    refine ⟨?_, ?_⟩
    · show EnumSet.addBit s i < 2 ^ w
      unfold EnumSet.addBit
      rw [one_shiftLeft_eq]
      exact lor_two_pow_lt hlt hiw
    · intro j hj
      rw [testBit_addBit] at hj
      rcases Bool.or_eq_true_iff.mp hj with h | h
      · exact hsub j h
      · have : i = j := of_decide_eq_true h
        subst this; exact hop
  | removeV i =>
    simp only [opValid] at hop
    simp only [applyOp, EnumSet.remove]
    have hiw : i < w := testBit_true_lt hm hop
    have hsubr : ∀ j, (EnumSet.removeBit w s i).testBit j = true → s.testBit j = true := by
      intro j hj
      rw [testBit_removeBit s j hiw] at hj
      exact (Bool.and_eq_true_iff.mp hj).1
    exact ⟨lt_pow_of_subset hlt hsubr, fun j hj => hsub j (hsubr j hj)⟩
  | insertAllS o =>
    simp only [opValid] at hop
    rw [validBits_iff hm] at hop
    simp only [applyOp, EnumSet.insertAll]
    refine ⟨Nat.or_lt_two_pow hlt hop.1, ?_⟩
    intro j hj
    rw [Nat.testBit_lor] at hj
    rcases Bool.or_eq_true_iff.mp hj with h | h
    · exact hsub j h
    · exact hop.2 j h
  | removeAllS o =>
    simp only [opValid] at hop
    rw [validBits_iff hm] at hop
    simp only [applyOp, EnumSet.removeAll]
    have hsubr : ∀ j, (andNot w s o).testBit j = true → s.testBit j = true := by
      intro j hj
      rw [testBit_andNot w s o j hop.1] at hj
      exact (Bool.and_eq_true_iff.mp hj).1
    exact ⟨lt_pow_of_subset hlt hsubr, fun j hj => hsub j (hsubr j hj)⟩
  | clearS =>
    simp only [applyOp, EnumSet.clear]
    exact ⟨Nat.pos_pow_of_pos w (by omega), fun j hj => absurd hj (by simp)⟩
  | unionS o =>
    simp only [opValid] at hop
    rw [validBits_iff hm] at hop
    simp only [applyOp, EnumSet.union]
    refine ⟨Nat.or_lt_two_pow hlt hop.1, ?_⟩
    intro j hj
    rw [Nat.testBit_lor] at hj
    rcases Bool.or_eq_true_iff.mp hj with h | h
    · exact hsub j h
    · exact hop.2 j h
  | intersectionS o =>
    simp only [applyOp, EnumSet.intersection]
    have hsubr : ∀ j, (s &&& o).testBit j = true → s.testBit j = true := by
      intro j hj
      rw [Nat.testBit_land] at hj
      exact (Bool.and_eq_true_iff.mp hj).1
    exact ⟨lt_pow_of_subset hlt hsubr, fun j hj => hsub j (hsubr j hj)⟩
  | differenceS o =>
    simp only [opValid] at hop
    rw [validBits_iff hm] at hop
    simp only [applyOp, EnumSet.difference]
    have hsubr : ∀ j, (andNot w s o).testBit j = true → s.testBit j = true := by
      intro j hj
      rw [testBit_andNot w s o j hop.1] at hj
      exact (Bool.and_eq_true_iff.mp hj).1
    exact ⟨lt_pow_of_subset hlt hsubr, fun j hj => hsub j (hsubr j hj)⟩
  | symDiffS o =>
    simp only [opValid] at hop
    rw [validBits_iff hm] at hop
    simp only [applyOp, EnumSet.symmetricalDifference]
    refine ⟨Nat.xor_lt_two_pow hlt hop.1, ?_⟩
    intro j hj
    rw [Nat.testBit_xor] at hj
    cases hsj : s.testBit j with
    | true => exact hsub j hsj
    | false =>
      rw [hsj] at hj
      simp only [Bool.false_xor] at hj
      exact hop.2 j hj
  | complementS =>
    simp only [applyOp, EnumSet.complement]
    refine ⟨land_le_left_lt (EnumSet.all mask) (reprNot_lt w s), ?_⟩
    intro j hj
    rw [Nat.testBit_land] at hj
    exact (Bool.and_eq_true_iff.mp hj).2
  | fromTruncS b =>
    simp only [opValid] at hop
    simp only [applyOp, EnumSet.fromReprTruncated]
    refine ⟨land_le_left_lt (EnumSet.all mask) hop, ?_⟩
    intro j hj
    rw [Nat.testBit_land] at hj
    exact (Bool.and_eq_true_iff.mp hj).2
  | tryFromS b =>
    simp only [opValid] at hop
    simp only [applyOp, EnumSet.tryFromRepr]
    by_cases hb : andNot w b (EnumSet.all mask) = 0
    · rw [if_pos hb]
      rw [← validBits_iff hm]
      exact ⟨hop, hb⟩
    · rw [if_neg hb]
      exact ⟨hlt, hsub⟩

theorem validBits_foldl {w mask : Nat} (hm : mask < 2 ^ w) :
    ∀ (ops : List PubOp) (s : Nat), ValidBits w mask s →
      (∀ op ∈ ops, opValid w mask op) →
      ValidBits w mask (ops.foldl (applyOp w mask) s)
  | [], _, hs, _ => hs
  | op :: ops, s, hs, hops =>
    validBits_foldl hm ops (applyOp w mask s op)
      (validBits_applyOp hm hs op (hops op (List.mem_cons_self op ops)))
      (fun o ho => hops o (List.mem_cons_of_mem op ho))

/-- Claim C1: for every enumeration (any width `w` and valid-bits mask below `2 ^ w`)
and every sequence of public non-unsafe operations (insert, remove, insert_all,
remove_all, clear, union, intersection, difference, symmetrical_difference,
complement, truncating and checked construction) with well-formed arguments,
starting from the empty set, the resulting backing value has zero bits outside the
mask (`s.and_not(ALL_BITS)` is empty) and stays a `w`-bit value. -/
theorem validBits_invariant_preserved (w mask : Nat) (hm : mask < 2 ^ w)
    (ops : List PubOp) (hops : ∀ op ∈ ops, opValid w mask op) :
    ValidBits w mask (ops.foldl (applyOp w mask) EnumSet.new) :=
  validBits_foldl hm ops EnumSet.new (validBits_new w mask) hops

theorem validBits_invariant_preserved_witness :
    (11 : Nat) < 2 ^ 8 ∧
    ValidBits 8 11
      (List.foldl (applyOp 8 11)  EnumSet.new
        [.insertV 0, .unionS 10, .complementS, .fromTruncS 200, .insertV 3,
         .removeV 0, .tryFromS 9, .symDiffS 2, .intersectionS 3]) :=
  ⟨by decide,
   validBits_invariant_preserved 8 11 (by decide)
     [.insertV 0, .unionS 10, .complementS, .fromTruncS 200, .insertV 3,
      .removeV 0, .tryFromS 9, .symDiffS 2, .intersectionS 3]
     (by decide)⟩

/-! ### Claim C2: return values of insert and remove -/

theorem legacy_hasBit_eq (s b : Nat) : Legacy.hasBit s b = Nat.testBit s b := by
  unfold Legacy.hasBit Legacy.maskBit
  rw [one_shiftLeft_eq]
  cases hsb : s.testBit b with
  | true =>
    have : s &&& 2 ^ b = 2 ^ b := by
      apply Nat.eq_of_testBit_eq
      intro j
      rw [Nat.testBit_land, Nat.testBit_two_pow]
      by_cases hj : b = j
      · subst hj; simp [hsb]
      · simp [hj]
    simp [this]
  | false =>
    have : s &&& 2 ^ b = 0 := by
      apply Nat.eq_of_testBit_eq
      intro j
      rw [Nat.testBit_land, Nat.testBit_two_pow, Nat.zero_testBit]
      by_cases hj : b = j
      · subst hj; simp [hsb]
      · simp [hj]
    rw [this]
    have hpos : 0 < 2 ^ b := Nat.pos_pow_of_pos b (by omega)
    simp [Nat.ne_of_lt hpos]

/-- Claim C2, counterexample: in the legacy implementation (`src/lib.rs`),
`insert` on the singleton set `{0}` with the value of bit index 0 returns `true`
even though the value was already present, refuting "insert returns true if and
only if the value was not present before the call" as stated. -/
theorem legacy_insert_return_counterexample :
    ¬ (((Legacy.insert 1 0).1 = true) ↔ Legacy.contains 1 0 = false) := by
  decide

/-- Claim C2, amended: in the current implementation (`enumset/src/lib.rs`),
`insert` returns `true` iff the value was not present and `remove` returns `true`
iff it was present, with the value respectively present or absent afterwards; in
the legacy implementation (`src/lib.rs`) `remove` behaves the same way, but
`insert` instead returns `true` iff the value *was* present before the call
(the value is still present afterwards). -/
theorem insert_remove_return_semantics (w mask s i : Nat) (hm : mask < 2 ^ w)
    (hi : mask.testBit i = true) :
    ((EnumSet.insert s i).1 = true ↔ EnumSet.contains s i = false)
    ∧ EnumSet.contains (EnumSet.insert s i).2 i = true
    ∧ ((EnumSet.remove w s i).1 = true ↔ EnumSet.contains s i = true)
    ∧ EnumSet.contains (EnumSet.remove w s i).2 i = false
    ∧ ((Legacy.insert s i).1 = true ↔ Legacy.contains s i = true)
    ∧ Legacy.contains (Legacy.insert s i).2 i = true
    ∧ ((Legacy.remove w s i).1 = true ↔ Legacy.contains s i = true)
    ∧ Legacy.contains (Legacy.remove w s i).2 i = false := by
  have hiw : i < w := testBit_true_lt hm hi
  refine ⟨?_, ?_, ?_, ?_, ?_, ?_, ?_, ?_⟩
  · simp [EnumSet.insert, EnumSet.contains]
  · show (EnumSet.addBit s i).testBit i = true
    rw [testBit_addBit]
    simp
  · simp [EnumSet.remove, EnumSet.contains]
  · show (EnumSet.removeBit w s i).testBit i = false
    rw [testBit_removeBit s i hiw]
    simp
  · simp [Legacy.insert, Legacy.contains]
  · show Legacy.hasBit (s ||| Legacy.maskBit i) i = true
    rw [legacy_hasBit_eq]
    unfold Legacy.maskBit
    rw [one_shiftLeft_eq, Nat.testBit_lor, Nat.testBit_two_pow]
    simp
  · simp [Legacy.remove, Legacy.contains]
  · show Legacy.hasBit (s &&& reprNot w (Legacy.maskBit i)) i = false
    rw [legacy_hasBit_eq]
    unfold Legacy.maskBit
    rw [one_shiftLeft_eq, Nat.testBit_land,
      testBit_reprNot w (2 ^ i) i (Nat.pow_lt_pow_right (by omega) hiw),
      Nat.testBit_two_pow]
    simp

theorem insert_remove_return_semantics_witness :
    (11 : Nat) < 2 ^ 8 ∧ Nat.testBit 11 1 = true ∧
    EnumSet.contains (EnumSet.insert 9 1).2 1 = true ∧
    EnumSet.contains (EnumSet.remove 8 9 1).2 1 = false :=
  ⟨by decide, by decide,
   (insert_remove_return_semantics 8 11 9 1 (by decide) (by decide)).2.1,
   (insert_remove_return_semantics 8 11 9 1 (by decide) (by decide)).2.2.2.1⟩

/-! ### Claim C7: difference as masked complement, complement involution -/

/-- Claim C7: for sets `a`, `b` of the same enumeration satisfying the valid-bits
invariant, `a - b = a & !b` (difference is intersection with the masked
complement), and `!!a = a` (complement is an involution). -/
theorem difference_and_complement_laws (w mask a b : Nat) (hm : mask < 2 ^ w)
    (ha : ValidBits w mask a) (hb : ValidBits w mask b) :
    EnumSet.difference w a b = EnumSet.intersection a (EnumSet.complement w mask b)
    ∧ EnumSet.complement w mask (EnumSet.complement w mask a) = a := by
  rw [validBits_iff hm] at ha hb
  constructor
  · apply Nat.eq_of_testBit_eq
    intro j
    unfold EnumSet.difference EnumSet.intersection EnumSet.complement EnumSet.all
    rw [testBit_andNot w a b j (by exact hb.1), Nat.testBit_land, Nat.testBit_land,
      testBit_reprNot w b j hb.1]
    cases haj : a.testBit j with
    | false => simp
    | true =>
      have hjw : j < w := testBit_true_lt ha.1 haj
      simp [hjw, ha.2 j haj]
  · apply Nat.eq_of_testBit_eq
    intro j
    unfold EnumSet.complement EnumSet.all
    have hc1 : reprNot w a &&& mask < 2 ^ w := land_le_left_lt mask (reprNot_lt w a)
    rw [Nat.testBit_land, testBit_reprNot w (reprNot w a &&& mask) j hc1,
      Nat.testBit_land, testBit_reprNot w a j ha.1]
    cases hmj : mask.testBit j with
    | false =>
      have haj : a.testBit j = false := by
        cases haj : a.testBit j
        · rfl
        · exact absurd (ha.2 j haj) (by rw [hmj]; simp)
      simp [haj]
    | true =>
      have hjw : j < w := testBit_true_lt hm hmj
      simp [hjw]

theorem difference_and_complement_laws_witness :
    (11 : Nat) < 2 ^ 8 ∧ ValidBits 8 11 9 ∧ ValidBits 8 11 3 ∧
    EnumSet.difference 8 9 3 = EnumSet.intersection 9 (EnumSet.complement 8 11 3) ∧
    EnumSet.complement 8 11 (EnumSet.complement 8 11 9) = 9 :=
  ⟨by decide, by decide, by decide,
   (difference_and_complement_laws 8 11 9 3 (by decide) (by decide) (by decide)).1,
   (difference_and_complement_laws 8 11 9 3 (by decide) (by decide) (by decide)).2⟩

/-! ### Claims C5 and C6: the numeric conversion contract -/

/-- Claim C5: for a set `s` satisfying the invariant whose bits fit in a target
width `n`, the checked export returns `some s` and the checked import takes it back
(`from_checked(to_checked(s)) = s`); for an `n`-bit input with bits outside the
mask or too wide for the backing width, the checked import returns `none`, while
the truncating import returns exactly the input bitwise-ANDed with the mask. -/
theorem conversion_round_trip_and_truncation (w mask n b s : Nat) (hm : mask < 2 ^ w)
    (hs : ValidBits w mask s) (hfit : s < 2 ^ n) (hb : b < 2 ^ n) :
    (EnumSet.tryTo n s = some s ∧ EnumSet.tryFromNum w mask s = some s)
    ∧ ((2 ^ w ≤ b ∨ ∃ i, b.testBit i = true ∧ mask.testBit i = false) →
        EnumSet.tryFromNum w mask b = none)
    ∧ EnumSet.fromNumTruncated w mask n b = b &&& mask := by
  obtain ⟨hslt, hsmask⟩ := hs
  refine ⟨⟨?_, ?_⟩, ?_, ?_⟩
  · unfold EnumSet.tryTo toWidthOpt
    rw [if_pos hfit]
  · unfold EnumSet.tryFromNum fromWidthOpt
    rw [if_pos hslt]
    show (if andNot w s (EnumSet.all mask) = 0 then some s else none) = some s
    simp only [EnumSet.all]
    rw [if_pos hsmask]
  · intro hbad
    unfold EnumSet.tryFromNum fromWidthOpt
    rcases hbad with hwide | ⟨i, hbi, hmi⟩
    · rw [if_neg (by omega)]
      rfl
    · by_cases hblt : b < 2 ^ w
      · rw [if_pos hblt]
        show (if andNot w b (EnumSet.all mask) = 0 then some b else none) = none
        rw [if_neg]
        intro h0
        have := (andNot_eq_zero_iff hblt hm).1 h0 i hbi
        rw [hmi] at this
        exact Bool.false_ne_true this
      · rw [if_neg hblt]
        rfl
  · unfold EnumSet.fromNumTruncated EnumSet.asNumTruncated toWidthTrunc
      fromWidthTrunc EnumSet.all
    have hstep : b &&& mask % 2 ^ n = b &&& mask := by
      apply Nat.eq_of_testBit_eq
      intro j
      rw [Nat.testBit_land, Nat.testBit_land, Nat.testBit_mod_two_pow]
      cases hbj : b.testBit j with
      | false => simp
      | true =>
        have : j < n := testBit_true_lt hb hbj
        simp [this]
    rw [hstep]
    have hlt : b &&& mask < 2 ^ w :=
      lt_pow_of_subset hm (fun j hj => (Bool.and_eq_true_iff.mp (by
        rw [Nat.testBit_land] at hj; exact hj)).2)
    exact Nat.mod_eq_of_lt hlt

theorem conversion_round_trip_and_truncation_witness :
    (11 : Nat) < 2 ^ 8 ∧ ValidBits 8 11 9 ∧ (9 : Nat) < 2 ^ 4 ∧ (4 : Nat) < 2 ^ 4 ∧
    (EnumSet.tryTo 4 9 = some 9 ∧ EnumSet.tryFromNum 8 11 9 = some 9) ∧
    EnumSet.fromNumTruncated 8 11 4 4 = 4 &&& 11 :=
  ⟨by decide, by decide, by decide, by decide,
   (conversion_round_trip_and_truncation 8 11 4 4 9 (by decide) (by decide)
     (by decide) (by decide)).1,
   (conversion_round_trip_and_truncation 8 11 4 4 9 (by decide) (by decide)
     (by decide) (by decide)).2.2⟩

/-- Claim C6: each panicking conversion entry point (`from_repr`, `from_uN`,
`as_uN`; the panic is modelled as `none`) yields no value exactly when its checked
sibling (`try_from_repr`, `try_from_uN`, `try_as_uN`) returns `None` on the same
input, and otherwise returns exactly the value the checked sibling wraps in `Some`;
moreover the shared failure condition is "a bit outside the mask is set" for the
imports and "the bitset does not fit" for the exports. -/
theorem panicking_conversions_match_checked (w mask n b s : Nat) (hm : mask < 2 ^ w) :
    (EnumSet.fromRepr w mask b = none ↔ EnumSet.tryFromRepr w mask b = none)
    ∧ (∀ v, EnumSet.fromRepr w mask b = some v ↔ EnumSet.tryFromRepr w mask b = some v)
    ∧ (EnumSet.fromNum w mask b = none ↔ EnumSet.tryFromNum w mask b = none)
    ∧ (∀ v, EnumSet.fromNum w mask b = some v ↔ EnumSet.tryFromNum w mask b = some v)
    ∧ (EnumSet.asNum n s = none ↔ EnumSet.tryTo n s = none)
    ∧ (∀ v, EnumSet.asNum n s = some v ↔ EnumSet.tryTo n s = some v)
    ∧ (b < 2 ^ w →
        (EnumSet.fromRepr w mask b = none ↔ ∃ i, b.testBit i = true ∧ mask.testBit i = false))
    ∧ (EnumSet.asNum n s = none ↔ 2 ^ n ≤ s) := by
  refine ⟨Iff.rfl, fun v => Iff.rfl, Iff.rfl, fun v => Iff.rfl, Iff.rfl, fun v => Iff.rfl,
    ?_, ?_⟩
  · intro hblt
    unfold EnumSet.fromRepr EnumSet.tryFromRepr EnumSet.all
    constructor
    · intro hnone
      have hne : andNot w b mask ≠ 0 := by
        intro h0
        rw [if_pos h0] at hnone
        exact Option.some_ne_none b hnone
      by_contra hno
      push_neg at hno
      apply hne
      rw [andNot_eq_zero_iff hblt hm]
      intro i hbi
      cases hmi : mask.testBit i with
      | true => rfl
      | false => exact absurd hmi (hno i hbi)
    · rintro ⟨i, hbi, hmi⟩
      rw [if_neg]
      intro h0
      have := (andNot_eq_zero_iff hblt hm).1 h0 i hbi
      rw [hmi] at this
      exact Bool.false_ne_true this
  · unfold EnumSet.asNum EnumSet.tryTo toWidthOpt
    by_cases hlt : s < 2 ^ n
    · rw [if_pos hlt]
      simp [Option.some_ne_none, Nat.not_le.2 hlt]
    · rw [if_neg hlt]
      simp [Nat.not_lt.1 hlt]

theorem panicking_conversions_match_checked_witness :
    (11 : Nat) < 2 ^ 8 ∧
    (EnumSet.fromRepr 8 11 20 = none ↔ EnumSet.tryFromRepr 8 11 20 = none) ∧
    (EnumSet.asNum 4 20 = none ↔ 2 ^ 4 ≤ 20) :=
  ⟨by decide,
   (panicking_conversions_match_checked 8 11 4 20 20 (by decide)).1,
   (panicking_conversions_match_checked 8 11 4 20 20 (by decide)).2.2.2.2.2.2.2⟩

/-! ### Highest and lowest set bits -/

theorem highBitAux_testBit : ∀ f n, n ≠ 0 → n < 2 ^ f →
    n.testBit (highBitAux f n) = true := by
  intro f
  induction f with
  | zero => intro n hn hlt; omega
  | succ f ih =>
    intro n hn hlt
    unfold highBitAux
    by_cases h2 : n < 2
    · rw [if_pos h2]
      have : n = 1 := by omega
      subst this
      decide
    · rw [if_neg h2]
      have hp : 2 ^ (f + 1) = 2 * 2 ^ f := by rw [Nat.pow_succ]; ring
      rw [Nat.testBit_add_one]
      exact ih (n / 2) (by omega) (by omega)

theorem highBitAux_above : ∀ f n i, n < 2 ^ f → highBitAux f n < i →
    n.testBit i = false := by
  intro f
  induction f with
  | zero =>
    intro n i hlt _
    have : n = 0 := by omega
    subst this
    exact Nat.zero_testBit i
  | succ f ih =>
    intro n i hlt hi
    unfold highBitAux at hi
    by_cases h2 : n < 2
    · rw [if_pos h2] at hi
      exact testBit_high_false (w := 1) (by omega) (by omega)
    · rw [if_neg h2] at hi
      have hp : 2 ^ (f + 1) = 2 * 2 ^ f := by rw [Nat.pow_succ]; ring
      cases i with
      | zero => omega
      | succ i =>
        rw [Nat.testBit_add_one]
        exact ih (n / 2) i (by omega) (by omega)

theorem highBitAux_lt : ∀ f n, n ≠ 0 → n < 2 ^ f → highBitAux f n < f := by
  intro f
  induction f with
  | zero => intro n hn hlt; omega
  | succ f ih =>
    intro n hn hlt
    unfold highBitAux
    by_cases h2 : n < 2
    · rw [if_pos h2]; omega
    · rw [if_neg h2]
      have hp : 2 ^ (f + 1) = 2 * 2 ^ f := by rw [Nat.pow_succ]; ring
      have := ih (n / 2) (by omega) (by omega)
      omega

theorem lowBitAux_testBit : ∀ f n, n ≠ 0 → n < 2 ^ f →
    n.testBit (lowBitAux f n) = true := by
  intro f
  induction f with
  | zero => intro n hn hlt; omega
  | succ f ih =>
    intro n hn hlt
    unfold lowBitAux
    by_cases hodd : n % 2 = 1
    · rw [if_pos hodd, Nat.testBit_zero]
      simp [hodd]
    · rw [if_neg hodd]
      have hp : 2 ^ (f + 1) = 2 * 2 ^ f := by rw [Nat.pow_succ]; ring
      rw [Nat.testBit_add_one]
      exact ih (n / 2) (by omega) (by omega)

theorem lowBitAux_below : ∀ f n i, i < lowBitAux f n → n.testBit i = false := by
  intro f
  induction f with
  | zero => intro n i hi; simp [lowBitAux] at hi
  | succ f ih =>
    intro n i hi
    unfold lowBitAux at hi
    by_cases hodd : n % 2 = 1
    · rw [if_pos hodd] at hi; omega
    · rw [if_neg hodd] at hi
      cases i with
      | zero =>
        rw [Nat.testBit_zero]
        simp [Nat.mod_two_ne_one.mp hodd]
      | succ i =>
        rw [Nat.testBit_add_one]
        exact ih (n / 2) i (by omega)

/-! ### Claim C8: size queries -/

set_option maxRecDepth 4096 in
/-- Claim C8: `bit_width()` returns the position of the highest valid bit plus one
(for any mask and any position `p` that is set and maximal), `variant_count()`
is the population count of the mask, and in the sparse scenario with discriminants
10, 20, 30, 127 the mask has exactly those four bits set, `bit_width() = 128` and
`variant_count() = 4`. -/
theorem size_queries_sparse :
    (∀ w mask p, mask < 2 ^ w → mask.testBit p = true →
      (∀ i, mask.testBit i = true → i ≤ p) →
      EnumSet.bitWidth w mask = p + 1)
    ∧ (∀ w mask, EnumSet.variantCount w mask = countOnes w mask)
    ∧ ((1 <<< 10) ||| (1 <<< 20) ||| (1 <<< 30) ||| (1 <<< 127) : Nat)
        = 2 ^ 10 + 2 ^ 20 + 2 ^ 30 + 2 ^ 127
    ∧ EnumSet.bitWidth 128 ((1 <<< 10) ||| (1 <<< 20) ||| (1 <<< 30) ||| (1 <<< 127)) = 128
    ∧ EnumSet.variantCount 128 ((1 <<< 10) ||| (1 <<< 20) ||| (1 <<< 30) ||| (1 <<< 127)) = 4 := by
  refine ⟨?_, fun w mask => rfl, by decide, by decide, by decide⟩
  intro w mask p hm hp hmax
  have hm0 : mask ≠ 0 := by
    intro h
    rw [h, Nat.zero_testBit] at hp
    exact Bool.false_ne_true hp
  have hpw : p < w := testBit_true_lt hm hp
  have hhb : highBitAux w mask = p := by
    have h1 : highBitAux w mask ≤ p := hmax _ (highBitAux_testBit w mask hm0 hm)
    have h2 : ¬ highBitAux w mask < p := by
      intro hlt
      have := highBitAux_above w mask p hm hlt
      rw [hp] at this
      exact Bool.noConfusion this
    omega
  unfold EnumSet.bitWidth leadingZeros
  rw [if_neg hm0, hhb]
  omega

theorem size_queries_sparse_witness :
    (11 : Nat) < 2 ^ 8 ∧ Nat.testBit 11 3 = true ∧ EnumSet.bitWidth 8 11 = 3 + 1 :=
  ⟨by decide, by decide,
   size_queries_sparse.1 8 11 3 (by decide) (by decide)
     (fun i hi => Nat.lt_succ_iff.mp (testBit_true_lt (by decide : (11 : Nat) < 2 ^ 4) hi))⟩

/-! ### Disjoint addition, bit removal and population count -/

theorem add_eq_lor_of_disjoint : ∀ f a b, a < 2 ^ f → b < 2 ^ f → a &&& b = 0 →
    a + b = a ||| b := by
  intro f
  induction f with
  | zero =>
    intro a b ha hb _
    interval_cases a
    interval_cases b
    rfl
  | succ f ih =>
    intro a b ha hb hd
    have hp : 2 ^ (f + 1) = 2 * 2 ^ f := by rw [Nat.pow_succ]; ring
    have hd2 : a / 2 &&& b / 2 = 0 := by
      rw [← Nat.and_div_two, hd]
    have hbit : ¬(a % 2 = 1 ∧ b % 2 = 1) := by
      rintro ⟨h1, h2⟩
      have : (a &&& b) % 2 = 1 := Nat.and_mod_two_eq_one.mpr ⟨h1, h2⟩
      rw [hd] at this
      omega
    have ihd : a / 2 + b / 2 = a / 2 ||| b / 2 := ih (a / 2) (b / 2) (by omega) (by omega) hd2
    have hu : (a ||| b) / 2 = a / 2 + b / 2 := by rw [Nat.or_div_two, ihd]
    have hum : (a ||| b) % 2 = 1 ↔ (a % 2 = 1 ∨ b % 2 = 1) := Nat.or_mod_two_eq_one
    have h1 := Nat.div_add_mod (a ||| b) 2
    have h2 := Nat.div_add_mod a 2
    have h3 := Nat.div_add_mod b 2
    omega

theorem removeBit_eq_sub {w s i : Nat} (hs : s < 2 ^ w) (hi : s.testBit i = true) :
    EnumSet.removeBit w s i = s - 2 ^ i := by
  have hiw : i < w := testBit_true_lt hs hi
  set r := EnumSet.removeBit w s i with hr
  have hri : r.testBit i = false := by
    rw [hr, testBit_removeBit_bounded i hs hiw]
    simp
  have hrsub : ∀ j, r.testBit j = true → s.testBit j = true := by
    intro j hj
    rw [hr, testBit_removeBit_bounded j hs hiw] at hj
    exact (Bool.and_eq_true_iff.mp hj).1
  have hrlt : r < 2 ^ w := lt_pow_of_subset hs hrsub
  have hdisj : r &&& 2 ^ i = 0 := by
    apply Nat.eq_of_testBit_eq
    intro j
    rw [Nat.testBit_land, Nat.testBit_two_pow, Nat.zero_testBit]
    by_cases hij : i = j
    · subst hij; simp [hri]
    · simp [hij]
  have hor : r ||| 2 ^ i = s := by
    apply Nat.eq_of_testBit_eq
    intro j
    rw [Nat.testBit_lor, Nat.testBit_two_pow]
    by_cases hij : i = j
    · subst hij; simp [hri, hi]
    · rw [hr, testBit_removeBit_bounded j hs hiw]
      simp [hij]
  have hsum : r + 2 ^ i = s := by
    rw [add_eq_lor_of_disjoint w r (2 ^ i) hrlt (Nat.pow_lt_pow_right (by omega) hiw) hdisj,
      hor]
  omega

theorem countOnes_zero : ∀ f, countOnes f 0 = 0 := by
  intro f
  induction f with
  | zero => rfl
  | succ f ih => simp [countOnes, ih]

theorem countOnes_sub_two_pow : ∀ i f s, s < 2 ^ f → s.testBit i = true →
    countOnes f (s - 2 ^ i) + 1 = countOnes f s := by
  intro i
  induction i with
  | zero =>
    intro f s hs hbit
    rw [Nat.testBit_zero] at hbit
    have hodd : s % 2 = 1 := of_decide_eq_true hbit
    cases f with
    | zero => omega
    | succ f =>
      show countOnes (f + 1) (s - 1) + 1 = countOnes (f + 1) s
      unfold countOnes
      have e1 : (s - 1) % 2 = 0 := by omega
      have e2 : (s - 1) / 2 = s / 2 := by omega
      rw [e1, e2]
      omega
  | succ i ih =>
    intro f s hs hbit
    have hge : 2 ^ (i + 1) ≤ s := Nat.testBit_implies_ge hbit
    have hp : 2 ^ (i + 1) = 2 * 2 ^ i := by rw [Nat.pow_succ]; ring
    cases f with
    | zero =>
      exfalso
      have : 0 < 2 ^ (i + 1) := Nat.pos_pow_of_pos _ (by omega)
      omega
    | succ f =>
      have hfp : 2 ^ (f + 1) = 2 * 2 ^ f := by rw [Nat.pow_succ]; ring
      show countOnes (f + 1) (s - 2 ^ (i + 1)) + 1 = countOnes (f + 1) s
      unfold countOnes
      have e1 : (s - 2 ^ (i + 1)) % 2 = s % 2 := by omega
      have e2 : (s - 2 ^ (i + 1)) / 2 = s / 2 - 2 ^ i := by omega
      rw [e1, e2]
      have hdb : (s / 2).testBit i = true := by
        rw [Nat.testBit_div_two]
        exact hbit
      have := ih f (s / 2) (by omega) hdb
      omega

theorem countOnes_removeBit {w s i : Nat} (hs : s < 2 ^ w) (hi : s.testBit i = true) :
    countOnes w (EnumSet.removeBit w s i) + 1 = countOnes w s := by
  rw [removeBit_eq_sub hs hi]
  exact countOnes_sub_two_pow i w s hs hi

/-! ### Forward and backward iteration (claims C4, C9, C10) -/

theorem enumSetIterNext_pos {w s : Nat} (hs0 : s ≠ 0) :
    enumSetIterNext w s =
      (some (lowBitAux w s), EnumSet.removeBit w s (lowBitAux w s)) := by
  unfold enumSetIterNext trailingZeros
  rw [if_neg hs0, if_neg hs0]

theorem removeBit_lt {w s i : Nat} (hs : s < 2 ^ w) (hi : s.testBit i = true) :
    EnumSet.removeBit w s i < s := by
  have hiw : i < w := testBit_true_lt hs hi
  apply Nat.lt_of_testBit i
  · rw [testBit_removeBit_bounded i hs hiw]; simp
  · exact hi
  · intro j hj
    rw [testBit_removeBit_bounded j hs hiw]
    have : ¬ i = j := by omega
    simp [this]

theorem iterRun_spec (w : Nat) : ∀ f s, s ≤ f → s < 2 ^ w →
    (∀ i, i ∈ enumSetIterRun w f s ↔ s.testBit i = true)
    ∧ (enumSetIterRun w f s).Pairwise (· < ·)
    ∧ (enumSetIterRun w f s).length = countOnes w s := by
  intro f
  induction f with
  | zero =>
    intro s hf _
    have : s = 0 := by omega
    subst this
    refine ⟨fun i => ?_, List.Pairwise.nil, by rw [countOnes_zero]; rfl⟩
    simp [enumSetIterRun, Nat.zero_testBit]
  | succ f ih =>
    intro s hf hs
    by_cases hs0 : s = 0
    · subst hs0
      refine ⟨fun i => ?_, ?_, ?_⟩
      · simp [enumSetIterRun, enumSetIterNext, Nat.zero_testBit]
      · simp [enumSetIterRun, enumSetIterNext]
      · simp [enumSetIterRun, enumSetIterNext, countOnes_zero]
    · have hrun : enumSetIterRun w (f + 1) s
          = lowBitAux w s :: enumSetIterRun w f (EnumSet.removeBit w s (lowBitAux w s)) := by
        show (match enumSetIterNext w s with
          | (none, _) => []
          | (some b, t) => b :: enumSetIterRun w f t) = _
        rw [enumSetIterNext_pos hs0]
      set lb := lowBitAux w s with hlbdef
      have hlb : s.testBit lb = true := lowBitAux_testBit w s hs0 hs
      have hlbw : lb < w := testBit_true_lt hs hlb
      set t := EnumSet.removeBit w s lb with htdef
      have htsub : ∀ j, t.testBit j = true → s.testBit j = true := by
        intro j hj
        rw [htdef, testBit_removeBit_bounded j hs hlbw] at hj
        exact (Bool.and_eq_true_iff.mp hj).1
      have htlt : t < 2 ^ w := lt_pow_of_subset hs htsub
      have htless : t < s := removeBit_lt hs hlb
      have htlb : t.testBit lb = false := by
        rw [htdef, testBit_removeBit_bounded lb hs hlbw]; simp
      obtain ⟨ihmem, ihpw, ihlen⟩ := ih t (by omega) htlt
      refine ⟨?_, ?_, ?_⟩
      · intro i
        rw [hrun, List.mem_cons, ihmem]
        constructor
        · rintro (rfl | hit)
          · exact hlb
          · exact htsub i hit
        · intro hsi
          by_cases hil : i = lb
          · exact Or.inl hil
          · right
            rw [htdef, testBit_removeBit_bounded i hs hlbw, hsi]
            simp [Ne.symm hil]
      · rw [hrun, List.pairwise_cons]
        refine ⟨?_, ihpw⟩
        intro i hi
        have hti : t.testBit i = true := (ihmem i).1 hi
        have hne : i ≠ lb := by
          intro h
          rw [h, htlb] at hti
          exact Bool.noConfusion hti
        have hnlt : ¬ i < lb := by
          intro h
          have := lowBitAux_below w s i h
          rw [htsub i hti] at this
          exact Bool.noConfusion this
        omega
      · rw [hrun, List.length_cons, ihlen]
        have := countOnes_removeBit hs hlb
        rw [← htdef] at this
        omega

theorem enumSetIterNextBack_pos {w s : Nat} (hs0 : s ≠ 0) (hs : s < 2 ^ w) :
    enumSetIterNextBack w s =
      (some (highBitAux w s), EnumSet.removeBit w s (highBitAux w s)) := by
  have hw : w ≠ 0 := by
    intro h
    subst h
    interval_cases s
    exact hs0 rfl
  have hhb : highBitAux w s < w := highBitAux_lt w s hs0 hs
  unfold enumSetIterNextBack leadingZeros
  rw [if_neg hs0, if_neg hs0]
  have : w - 1 - (w - 1 - highBitAux w s) = highBitAux w s := by omega
  rw [this]

theorem iterRunBack_spec (w : Nat) : ∀ f s, s ≤ f → s < 2 ^ w →
    (∀ i, i ∈ enumSetIterRunBack w f s ↔ s.testBit i = true)
    ∧ (enumSetIterRunBack w f s).Pairwise (· > ·) := by
  intro f
  induction f with
  | zero =>
    intro s hf _
    have : s = 0 := by omega
    subst this
    refine ⟨fun i => ?_, List.Pairwise.nil⟩
    simp [enumSetIterRunBack, Nat.zero_testBit]
  | succ f ih =>
    intro s hf hs
    by_cases hs0 : s = 0
    · subst hs0
      refine ⟨fun i => ?_, ?_⟩
      · simp [enumSetIterRunBack, enumSetIterNextBack, Nat.zero_testBit]
      · simp [enumSetIterRunBack, enumSetIterNextBack]
    · have hrun : enumSetIterRunBack w (f + 1) s
          = highBitAux w s :: enumSetIterRunBack w f (EnumSet.removeBit w s (highBitAux w s)) := by
        show (match enumSetIterNextBack w s with
          | (none, _) => []
          | (some b, t) => b :: enumSetIterRunBack w f t) = _
        rw [enumSetIterNextBack_pos hs0 hs]
      set hb := highBitAux w s with hhbdef
      have hhb : s.testBit hb = true := highBitAux_testBit w s hs0 hs
      have hhbw : hb < w := testBit_true_lt hs hhb
      set t := EnumSet.removeBit w s hb with htdef
      have htsub : ∀ j, t.testBit j = true → s.testBit j = true := by
        intro j hj
        rw [htdef, testBit_removeBit_bounded j hs hhbw] at hj
        exact (Bool.and_eq_true_iff.mp hj).1
      have htlt : t < 2 ^ w := lt_pow_of_subset hs htsub
      have htless : t < s := removeBit_lt hs hhb
      have hthb : t.testBit hb = false := by
        rw [htdef, testBit_removeBit_bounded hb hs hhbw]; simp
      obtain ⟨ihmem, ihpw⟩ := ih t (by omega) htlt
      refine ⟨?_, ?_⟩
      · intro i
        rw [hrun, List.mem_cons, ihmem]
        constructor
        · rintro (rfl | hit)
          · exact hhb
          · exact htsub i hit
        · intro hsi
          by_cases hih : i = hb
          · exact Or.inl hih
          · right
            rw [htdef, testBit_removeBit_bounded i hs hhbw, hsi]
            simp [Ne.symm hih]
      · rw [hrun, List.pairwise_cons]
        refine ⟨?_, ihpw⟩
        intro i hi
        have hti : t.testBit i = true := (ihmem i).1 hi
        have hne : i ≠ hb := by
          intro h
          rw [h, hthb] at hti
          exact Bool.noConfusion hti
        have hngt : ¬ hb < i := by
          intro h
          have := highBitAux_above w s i hs h
          rw [htsub i hti] at this
          exact Bool.noConfusion this
        show hb > i
        omega

theorem pairwise_lt_eq_of_mem_iff :
    ∀ (l1 l2 : List Nat), l1.Pairwise (· < ·) → l2.Pairwise (· < ·) →
      (∀ x, x ∈ l1 ↔ x ∈ l2) → l1 = l2 := by
  intro l1
  induction l1 with
  | nil =>
    intro l2 _ _ hmem
    cases l2 with
    | nil => rfl
    | cons b t2 => exact absurd ((hmem b).2 (List.mem_cons_self b t2)) (by simp)
  | cons a t1 ih =>
    intro l2 hp1 hp2 hmem
    cases l2 with
    | nil => exact absurd ((hmem a).1 (List.mem_cons_self a t1)) (by simp)
    | cons b t2 =>
      rw [List.pairwise_cons] at hp1 hp2
      have hab : a = b := by
        have h1 : a = b ∨ b < a := by
          rcases List.mem_cons.mp ((hmem a).1 (List.mem_cons_self a t1)) with h | h
          · exact Or.inl h
          · exact Or.inr (hp2.1 a h)
        have h2 : b = a ∨ a < b := by
          rcases List.mem_cons.mp ((hmem b).2 (List.mem_cons_self b t2)) with h | h
          · exact Or.inl h
          · exact Or.inr (hp1.1 b h)
        omega
      subst hab
      have htmem : ∀ x, x ∈ t1 ↔ x ∈ t2 := by
        intro x
        constructor
        · intro hx
          have hax : a < x := hp1.1 x hx
          rcases List.mem_cons.mp ((hmem x).1 (List.mem_cons_of_mem a hx)) with h | h
          · omega
          · exact h
        · intro hx
          have hax : a < x := hp2.1 x hx
          rcases List.mem_cons.mp ((hmem x).2 (List.mem_cons_of_mem a hx)) with h | h
          · omega
          · exact h
      rw [ih t2 hp1.2 hp2.2 htmem]

/-- Claim C4: for every set `s` (any `w`-bit value) and enough fuel, the forward
iterator yields exactly the values contained in `s`, each exactly once (the output
is strictly ascending, hence duplicate-free), in ascending bit-index order, and the
backward iterator yields exactly the reversed list; the iterator operates on its
own copy of `s`, which `iter()` leaves unchanged. -/
theorem iteration_completeness_and_order (w f s : Nat) (hs : s < 2 ^ w) (hf : s ≤ f) :
    (∀ i, i ∈ enumSetIterRun w f s ↔ EnumSet.contains s i = true)
    ∧ (enumSetIterRun w f s).Pairwise (· < ·)
    ∧ enumSetIterRunBack w f s = (enumSetIterRun w f s).reverse
    ∧ enumSetIterNew s = s := by
  obtain ⟨hmemF, hpwF, -⟩ := iterRun_spec w f s hf hs
  obtain ⟨hmemB, hpwB⟩ := iterRunBack_spec w f s hf hs
  refine ⟨hmemF, hpwF, ?_, rfl⟩
  have hrevpw : (enumSetIterRunBack w f s).reverse.Pairwise (· < ·) := by
    rw [List.pairwise_reverse]
    exact hpwB
  have heq : (enumSetIterRunBack w f s).reverse = enumSetIterRun w f s := by
    apply pairwise_lt_eq_of_mem_iff _ _ hrevpw hpwF
    intro x
    rw [List.mem_reverse, hmemB, hmemF]
  rw [← heq, List.reverse_reverse]

theorem iteration_completeness_and_order_witness :
    (22 : Nat) < 2 ^ 8 ∧ (22 : Nat) ≤ 22 ∧
    enumSetIterRunBack 8 22 22 = (enumSetIterRun 8 22 22).reverse :=
  ⟨by decide, by decide, (iteration_completeness_and_order 8 22 22 (by decide) (by decide)).2.2.1⟩

theorem enumSetIterNext_snd_lt {w s : Nat} (hs : s < 2 ^ w) :
    (enumSetIterNext w s).2 < 2 ^ w := by
  by_cases hs0 : s = 0
  · subst hs0
    simp [enumSetIterNext]
  · rw [enumSetIterNext_pos hs0]
    have hlb : s.testBit (lowBitAux w s) = true := lowBitAux_testBit w s hs0 hs
    exact lt_pow_of_subset hs (fun j hj =>
      (Bool.and_eq_true_iff.mp (by
        rw [testBit_removeBit_bounded j hs (testBit_true_lt hs hlb)] at hj
        exact hj)).1)

theorem enumSetIterStateAfter_lt (w : Nat) : ∀ k s, s < 2 ^ w →
    enumSetIterStateAfter w k s < 2 ^ w := by
  intro k
  induction k with
  | zero => intro s hs; exact hs
  | succ k ih =>
    intro s hs
    exact ih (enumSetIterNext w s).2 (enumSetIterNext_snd_lt hs)

/-- Claim C9: for every forward-iterator state reachable by iterating a set
(`k` calls of `next` from any `w`-bit starting value), `size_hint` returns the
exact pair `(n, Some n)` where `n` is the number of elements the iterator will
still yield, and this count decreases by exactly one at each yielded element. -/
theorem size_hint_exact (w s k : Nat) (hs : s < 2 ^ w) :
    sizeHint w (enumSetIterStateAfter w k s)
      = ((enumSetIterRun w (enumSetIterStateAfter w k s)
            (enumSetIterStateAfter w k s)).length,
         some (enumSetIterRun w (enumSetIterStateAfter w k s)
            (enumSetIterStateAfter w k s)).length)
    ∧ (enumSetIterStateAfter w k s ≠ 0 →
        EnumSet.len w (enumSetIterNext w (enumSetIterStateAfter w k s)).2 + 1
          = EnumSet.len w (enumSetIterStateAfter w k s)) := by
  set t := enumSetIterStateAfter w k s with htdef
  have ht : t < 2 ^ w := enumSetIterStateAfter_lt w k s hs
  constructor
  · obtain ⟨-, -, hlen⟩ := iterRun_spec w t t (Nat.le_refl t) ht
    rw [hlen]
    rfl
  · intro ht0
    rw [enumSetIterNext_pos ht0]
    show countOnes w (EnumSet.removeBit w t (lowBitAux w t)) + 1 = countOnes w t
    exact countOnes_removeBit ht (lowBitAux_testBit w t ht0 ht)

theorem size_hint_exact_witness :
    (22 : Nat) < 2 ^ 8 ∧
    sizeHint 8 (enumSetIterStateAfter 8 1 22)
      = ((enumSetIterRun 8 (enumSetIterStateAfter 8 1 22)
            (enumSetIterStateAfter 8 1 22)).length,
         some (enumSetIterRun 8 (enumSetIterStateAfter 8 1 22)
            (enumSetIterStateAfter 8 1 22)).length) :=
  ⟨by decide, (size_hint_exact 8 22 1 (by decide)).1⟩

theorem enumSetIterStateAfter_zero (w : Nat) : ∀ k, enumSetIterStateAfter w k 0 = 0 := by
  intro k
  induction k with
  | zero => rfl
  | succ k ih =>
    show enumSetIterStateAfter w k (enumSetIterNext w 0).2 = 0
    have : (enumSetIterNext w 0).2 = 0 := by simp [enumSetIterNext]
    rw [this, ih]

theorem subsetIterNext_done {w : Nat} {it : EnumSetSubsetIter} (h : it.done = true) :
    subsetIterNext w it = (none, it) := by
  unfold subsetIterNext
  rw [if_pos h]

theorem subsetIterStateAfter_done (w : Nat) : ∀ k (it : EnumSetSubsetIter),
    it.done = true → subsetIterStateAfter w k it = it := by
  intro k
  induction k with
  | zero => intro it _; rfl
  | succ k ih =>
    intro it h
    show subsetIterStateAfter w k (subsetIterNext w it).2 = it
    rw [subsetIterNext_done h]
    exact ih it h

/-- Claim C10: exhaustion is permanent for both iterators: once `next()` has
returned `None` (forward iterator: the working copy is empty; subset iterator: the
`done` flag is set), every later call, after any number `k` of further steps, also
returns `None`. -/
theorem iterators_fused_after_none (w s k : Nat) (it : EnumSetSubsetIter)
    (hf : (enumSetIterNext w s).1 = none) (hsub : (subsetIterNext w it).1 = none) :
    (enumSetIterNext w (enumSetIterStateAfter w k s)).1 = none
    ∧ (subsetIterNext w (subsetIterStateAfter w k it)).1 = none := by
  have hs0 : s = 0 := by
    by_contra h
    rw [enumSetIterNext_pos h] at hf
    exact Option.some_ne_none _ hf
  have hdone : it.done = true := by
    by_contra h
    unfold subsetIterNext at hsub
    rw [if_neg h] at hsub
    exact Option.some_ne_none _ hsub
  subst hs0
  constructor
  · rw [enumSetIterStateAfter_zero w k]
    simp [enumSetIterNext]
  · rw [subsetIterStateAfter_done w k it hdone, subsetIterNext_done hdone]

theorem iterators_fused_after_none_witness :
    (enumSetIterNext 4 0).1 = none ∧
    (subsetIterNext 4 (EnumSetSubsetIter.mk 5 0 true)).1 = none ∧
    (enumSetIterNext 4 (enumSetIterStateAfter 4 3 0)).1 = none ∧
    (subsetIterNext 4 (subsetIterStateAfter 4 3 (EnumSetSubsetIter.mk 5 0 true))).1 = none :=
  ⟨by decide, by decide,
   (iterators_fused_after_none 4 0 3 (EnumSetSubsetIter.mk 5 0 true)
     (by decide) (by decide)).1,
   (iterators_fused_after_none 4 0 3 (EnumSetSubsetIter.mk 5 0 true)
     (by decide) (by decide)).2⟩

/-! ### The carry-rippler subset enumeration (claim C3) -/

theorem countOnes_succ (f n : Nat) : countOnes (f + 1) n = n % 2 + countOnes f (n / 2) := rfl

theorem pdepAux_succ (f s j : Nat) :
    pdepAux (f + 1) s j =
      if s % 2 = 1 then j % 2 + 2 * pdepAux f (s / 2) (j / 2)
      else 2 * pdepAux f (s / 2) j := rfl

theorem pdepAux_zero : ∀ f s, pdepAux f s 0 = 0 := by
  intro f
  induction f with
  | zero => intro s; rfl
  | succ f ih =>
    intro s
    rw [pdepAux_succ]
    by_cases hso : s % 2 = 1
    · rw [if_pos hso]
      simp [ih]
    · rw [if_neg hso]
      simp [ih]

theorem pdepAux_subset : ∀ f s j i, (pdepAux f s j).testBit i = true →
    s.testBit i = true := by
  intro f
  induction f with
  | zero =>
    intro s j i h
    rw [show pdepAux 0 s j = 0 from rfl, Nat.zero_testBit] at h
    exact Bool.noConfusion h
  | succ f ih =>
    intro s j i h
    rw [pdepAux_succ] at h
    by_cases hso : s % 2 = 1
    · rw [if_pos hso] at h
      cases i with
      | zero =>
        rw [Nat.testBit_zero]
        simp [hso]
      | succ i =>
        rw [Nat.testBit_add_one] at h ⊢
        have e : (j % 2 + 2 * pdepAux f (s / 2) (j / 2)) / 2 = pdepAux f (s / 2) (j / 2) := by
          omega
        rw [e] at h
        exact ih (s / 2) (j / 2) i h
    · rw [if_neg hso] at h
      cases i with
      | zero =>
        rw [Nat.testBit_zero] at h
        have : (2 * pdepAux f (s / 2) j) % 2 = 0 := by omega
        rw [this] at h
        simp at h
      | succ i =>
        rw [Nat.testBit_add_one] at h ⊢
        have e : (2 * pdepAux f (s / 2) j) / 2 = pdepAux f (s / 2) j := by omega
        rw [e] at h
        exact ih (s / 2) j i h

theorem pdepAux_lt {w s : Nat} (j : Nat) (hs : s < 2 ^ w) : pdepAux w s j < 2 ^ w :=
  lt_pow_of_subset hs (pdepAux_subset w s j)

theorem pdepAux_mono : ∀ f s j j', j < j' → j' < 2 ^ countOnes f s →
    pdepAux f s j < pdepAux f s j' := by
  intro f
  induction f with
  | zero =>
    intro s j j' hjj hj'
    rw [show countOnes 0 s = 0 from rfl] at hj'
    omega
  | succ f ih =>
    intro s j j' hjj hj'
    rw [countOnes_succ] at hj'
    by_cases hso : s % 2 = 1
    · rw [pdepAux_succ, pdepAux_succ, if_pos hso, if_pos hso]
      rw [hso] at hj'
      have hc2 : 2 ^ (1 + countOnes f (s / 2)) = 2 * 2 ^ countOnes f (s / 2) := by
        rw [Nat.pow_add]
      rcases Nat.lt_or_ge (j / 2) (j' / 2) with hlt | hge
      · have := ih (s / 2) (j / 2) (j' / 2) hlt (by omega)
        omega
      · have hle : j / 2 ≤ j' / 2 := Nat.div_le_div_right (by omega)
        have heq : j / 2 = j' / 2 := by omega
        rw [heq]
        omega
    · rw [pdepAux_succ, pdepAux_succ, if_neg hso, if_neg hso]
      have hz : s % 2 = 0 := by omega
      rw [hz, Nat.zero_add] at hj'
      have := ih (s / 2) j j' hjj hj'
      omega

theorem pdepAux_last : ∀ f s, s < 2 ^ f → pdepAux f s (2 ^ countOnes f s - 1) = s := by
  intro f
  induction f with
  | zero =>
    intro s hs
    have : s = 0 := by omega
    subst this
    rfl
  | succ f ih =>
    intro s hs
    have hp : 2 ^ (f + 1) = 2 * 2 ^ f := by rw [Nat.pow_succ]; ring
    have hpos : 0 < 2 ^ countOnes f (s / 2) := Nat.pos_pow_of_pos _ (by omega)
    rw [countOnes_succ, pdepAux_succ]
    by_cases hso : s % 2 = 1
    · rw [if_pos hso, hso]
      have hc2 : 2 ^ (1 + countOnes f (s / 2)) = 2 * 2 ^ countOnes f (s / 2) := by
        rw [Nat.pow_add]
      have e1 : (2 ^ (1 + countOnes f (s / 2)) - 1) % 2 = 1 := by omega
      have e2 : (2 ^ (1 + countOnes f (s / 2)) - 1) / 2 = 2 ^ countOnes f (s / 2) - 1 := by
        omega
      rw [e1, e2, ih (s / 2) (by omega)]
      omega
    · rw [if_neg hso]
      have hz : s % 2 = 0 := by omega
      rw [hz, Nat.zero_add, ih (s / 2) (by omega)]
      omega

theorem or_not_and {w x s : Nat} (hs : s < 2 ^ w)
    (hsub : ∀ i, x.testBit i = true → s.testBit i = true) :
    (x ||| reprNot w s) &&& s = x := by
  apply Nat.eq_of_testBit_eq
  intro i
  rw [Nat.testBit_land, Nat.testBit_lor, testBit_reprNot w s i hs]
  cases hsi : s.testBit i with
  | true =>
    have hiw : i < w := testBit_true_lt hs hsi
    simp [hiw]
  | false =>
    have hxi : x.testBit i = false := by
      cases hx : x.testBit i
      · rfl
      · rw [hsub i hx] at hsi; exact Bool.noConfusion hsi
    simp [hxi]

theorem carry_step : ∀ f s j, s < 2 ^ f → j + 1 < 2 ^ countOnes f s →
    ((pdepAux f s j ||| reprNot f s) + 1) &&& s = pdepAux f s (j + 1) := by
  intro f
  induction f with
  | zero =>
    intro s j hs hj
    rw [show countOnes 0 s = 0 from rfl] at hj
    omega
  | succ f ih =>
    intro s j hs hj
    have hp : 2 ^ (f + 1) = 2 * 2 ^ f := by rw [Nat.pow_succ]; ring
    have hNmod : reprNot (f + 1) s % 2 = 1 - s % 2 := by unfold reprNot; omega
    have hNdiv : reprNot (f + 1) s / 2 = reprNot f (s / 2) := by unfold reprNot; omega
    rw [countOnes_succ] at hj
    by_cases hso : s % 2 = 1
    · rw [hso] at hj
      have hc2 : 2 ^ (1 + countOnes f (s / 2)) = 2 * 2 ^ countOnes f (s / 2) := by
        rw [Nat.pow_add]
      set P := pdepAux f (s / 2) (j / 2) with hP
      have hpdep : pdepAux (f + 1) s j = j % 2 + 2 * P := by
        rw [pdepAux_succ, if_pos hso]
      set A := pdepAux (f + 1) s j ||| reprNot (f + 1) s with hA
      have hAdiv : A / 2 = P ||| reprNot f (s / 2) := by
        rw [hA, Nat.or_div_two, hNdiv]
        congr 1
        rw [hpdep]
        omega
      have hAmodiff : A % 2 = 1 ↔
          (pdepAux (f + 1) s j % 2 = 1 ∨ reprNot (f + 1) s % 2 = 1) := by
        rw [hA]; exact Nat.or_mod_two_eq_one
      have hAmod : A % 2 = j % 2 := by
        rw [hpdep] at hAmodiff
        omega
      set B := (A + 1) &&& s with hB
      have hBdiv : B / 2 = (A + 1) / 2 &&& (s / 2) := by
        rw [hB]; exact Nat.and_div_two
      have hBmodiff : B % 2 = 1 ↔ ((A + 1) % 2 = 1 ∧ s % 2 = 1) := by
        rw [hB]; exact Nat.and_mod_two_eq_one
      by_cases hje : j % 2 = 0
      · have hA1div : (A + 1) / 2 = P ||| reprNot f (s / 2) := by
          rw [← hAdiv]; omega
        rw [hA1div] at hBdiv
        have hk : (P ||| reprNot f (s / 2)) &&& (s / 2) = P :=
          or_not_and (by omega) (pdepAux_subset f (s / 2) (j / 2))
        rw [hk] at hBdiv
        have hBmod : B % 2 = 1 := by omega
        have hrhs : pdepAux (f + 1) s (j + 1) = 1 + 2 * P := by
          rw [pdepAux_succ, if_pos hso]
          have e1 : (j + 1) % 2 = 1 := by omega
          have e2 : (j + 1) / 2 = j / 2 := by omega
          rw [e1, e2]
        omega
      · have hjo : j % 2 = 1 := by omega
        have hA1div : (A + 1) / 2 = (P ||| reprNot f (s / 2)) + 1 := by
          rw [← hAdiv]; omega
        rw [hA1div] at hBdiv
        have hrec : ((P ||| reprNot f (s / 2)) + 1) &&& (s / 2)
            = pdepAux f (s / 2) (j / 2 + 1) :=
          ih (s / 2) (j / 2) (by omega) (by omega)
        rw [hrec] at hBdiv
        have hBmod : B % 2 = 0 := by omega
        have hrhs : pdepAux (f + 1) s (j + 1) = 2 * pdepAux f (s / 2) (j / 2 + 1) := by
          rw [pdepAux_succ, if_pos hso]
          have e1 : (j + 1) % 2 = 0 := by omega
          have e2 : (j + 1) / 2 = j / 2 + 1 := by omega
          rw [e1, e2]
          omega
        omega
    · have hz : s % 2 = 0 := by omega
      rw [hz, Nat.zero_add] at hj
      set P := pdepAux f (s / 2) j with hP
      have hpdep : pdepAux (f + 1) s j = 2 * P := by
        rw [pdepAux_succ, if_neg hso]
      set A := pdepAux (f + 1) s j ||| reprNot (f + 1) s with hA
      have hAdiv : A / 2 = P ||| reprNot f (s / 2) := by
        rw [hA, Nat.or_div_two, hNdiv]
        congr 1
        rw [hpdep]
        omega
      have hAmodiff : A % 2 = 1 ↔
          (pdepAux (f + 1) s j % 2 = 1 ∨ reprNot (f + 1) s % 2 = 1) := by
        rw [hA]; exact Nat.or_mod_two_eq_one
      have hAmod : A % 2 = 1 := by
        rw [hpdep] at hAmodiff
        omega
      set B := (A + 1) &&& s with hB
      have hBdiv : B / 2 = (A + 1) / 2 &&& (s / 2) := by
        rw [hB]; exact Nat.and_div_two
      have hBmodiff : B % 2 = 1 ↔ ((A + 1) % 2 = 1 ∧ s % 2 = 1) := by
        rw [hB]; exact Nat.and_mod_two_eq_one
      have hA1div : (A + 1) / 2 = (P ||| reprNot f (s / 2)) + 1 := by
        rw [← hAdiv]; omega
      rw [hA1div] at hBdiv
      have hrec : ((P ||| reprNot f (s / 2)) + 1) &&& (s / 2) = pdepAux f (s / 2) (j + 1) :=
        ih (s / 2) j (by omega) hj
      rw [hrec] at hBdiv
      have hBmod : B % 2 = 0 := by omega
      have hrhs : pdepAux (f + 1) s (j + 1) = 2 * pdepAux f (s / 2) (j + 1) := by
        rw [pdepAux_succ, if_neg hso]
      omega

theorem subset_disjoint_not {w x s : Nat} (hs : s < 2 ^ w)
    (hsub : ∀ i, x.testBit i = true → s.testBit i = true) :
    x &&& reprNot w s = 0 := by
  apply Nat.eq_of_testBit_eq
  intro i
  rw [Nat.testBit_land, testBit_reprNot w s i hs, Nat.zero_testBit]
  cases hx : x.testBit i with
  | false => simp
  | true => simp [hsub i hx]

theorem wrappingSub_submask {w x s : Nat} (hs : s < 2 ^ w)
    (hsub : ∀ i, x.testBit i = true → s.testBit i = true) (hne : x ≠ s) :
    wrappingSub w x s = (x ||| reprNot w s) + 1 := by
  have hx : x < 2 ^ w := lt_pow_of_subset hs hsub
  have hadd : x + reprNot w s = x ||| reprNot w s :=
    add_eq_lor_of_disjoint w x (reprNot w s) hx (reprNot_lt w s)
      (subset_disjoint_not hs hsub)
  have hex : ∃ i, s.testBit i = true ∧ x.testBit i = false := by
    by_contra hno
    push_neg at hno
    apply hne
    apply Nat.eq_of_testBit_eq
    intro i
    cases hxi : x.testBit i with
    | true => rw [hsub i hxi]
    | false =>
      cases hsi : s.testBit i with
      | true => exact absurd hxi (hno i hsi)
      | false => rfl
  obtain ⟨i, hsi, hxi⟩ := hex
  have hiw : i < w := testBit_true_lt hs hsi
  have hor_ne : x ||| reprNot w s ≠ 2 ^ w - 1 := by
    intro h
    have hbits : (x ||| reprNot w s).testBit i = (2 ^ w - 1 : Nat).testBit i := by rw [h]
    rw [Nat.testBit_lor, testBit_reprNot w s i hs, Nat.testBit_two_pow_sub_one,
      hxi, hsi] at hbits
    simp [hiw] at hbits
  have hor_lt : x ||| reprNot w s < 2 ^ w := Nat.or_lt_two_pow hx (reprNot_lt w s)
  have hwpos : 0 < 2 ^ w := Nat.pos_pow_of_pos w (by omega)
  unfold wrappingSub
  unfold reprNot at hadd hor_ne hor_lt ⊢
  have harith : x + (2 ^ w - s) = (x ||| (2 ^ w - 1 - s)) + 1 := by omega
  rw [harith]
  apply Nat.mod_eq_of_lt
  omega

theorem wrappingSub_self (w s : Nat) (hs : s < 2 ^ w) :
    wrappingSub w s s &&& s = 0 := by
  unfold wrappingSub
  have hwpos : 0 < 2 ^ w := Nat.pos_pow_of_pos w (by omega)
  have : s + (2 ^ w - s) = 2 ^ w := by omega
  rw [this, Nat.mod_self]
  exact Nat.zero_and s

theorem subsetIterNext_active (w s x : Nat) :
    subsetIterNext w ⟨s, x, false⟩ =
      (some x, ⟨s, wrappingSub w x s &&& s, (wrappingSub w x s &&& s) == 0⟩) := rfl

theorem subsetIterRun_nil (w : Nat) (f : Nat) (it : EnumSetSubsetIter)
    (h : it.done = true) : subsetIterRun w f it = [] := by
  cases f with
  | zero => rfl
  | succ f =>
    show (match subsetIterNext w it with
      | (none, _) => []
      | (some x, it') => x :: subsetIterRun w f it') = []
    rw [subsetIterNext_done h]

theorem subsetIterRun_cons (w f : Nat) (it : EnumSetSubsetIter) (x : Nat)
    (it' : EnumSetSubsetIter) (h : subsetIterNext w it = (some x, it')) :
    subsetIterRun w (f + 1) it = x :: subsetIterRun w f it' := by
  show (match subsetIterNext w it with
    | (none, _) => []
    | (some b, t) => b :: subsetIterRun w f t) = _
  rw [h]

theorem subsetRun_from (w s : Nat) (hs : s < 2 ^ w) :
    ∀ m j f, j + (m + 1) = 2 ^ countOnes w s → m + 1 ≤ f →
      subsetIterRun w f ⟨s, pdepAux w s j, false⟩
        = (List.range' j (m + 1)).map (fun t => pdepAux w s t) := by
  intro m
  induction m with
  | zero =>
    intro j f hj hf
    obtain ⟨f', rfl⟩ : ∃ f', f = f' + 1 := ⟨f - 1, by omega⟩
    have hjval : j = 2 ^ countOnes w s - 1 := by
      have : 0 < 2 ^ countOnes w s := Nat.pos_pow_of_pos _ (by omega)
      omega
    have hnxt : wrappingSub w (pdepAux w s j) s &&& s = 0 := by
      rw [hjval, pdepAux_last w s hs]
      exact wrappingSub_self w s hs
    rw [subsetIterRun_cons w f' _ (pdepAux w s j)
      ⟨s, wrappingSub w (pdepAux w s j) s &&& s, (wrappingSub w (pdepAux w s j) s &&& s) == 0⟩
      (subsetIterNext_active w s (pdepAux w s j))]
    rw [subsetIterRun_nil w f' _ (by rw [hnxt]; rfl)]
    simp [List.range']
  | succ m ih =>
    intro j f hj hf
    obtain ⟨f', rfl⟩ : ∃ f', f = f' + 1 := ⟨f - 1, by omega⟩
    have hpow : 0 < 2 ^ countOnes w s := Nat.pos_pow_of_pos _ (by omega)
    have hc : j + 1 < 2 ^ countOnes w s := by omega
    have hsub := pdepAux_subset w s j
    have hxs : pdepAux w s j ≠ s := by
      have hlt : pdepAux w s j < pdepAux w s (2 ^ countOnes w s - 1) :=
        pdepAux_mono w s j (2 ^ countOnes w s - 1) (by omega) (by omega)
      rw [pdepAux_last w s hs] at hlt
      omega
    have hstep : wrappingSub w (pdepAux w s j) s &&& s = pdepAux w s (j + 1) := by
      rw [wrappingSub_submask hs hsub hxs]
      exact carry_step w s j hs hc
    have hne0 : pdepAux w s (j + 1) ≠ 0 := by
      have h0 : pdepAux w s 0 < pdepAux w s (j + 1) :=
        pdepAux_mono w s 0 (j + 1) (by omega) hc
      rw [pdepAux_zero] at h0
      omega
    have hbeq : (pdepAux w s (j + 1) == 0) = false := beq_eq_false_iff_ne.mpr hne0
    rw [subsetIterRun_cons w f' _ (pdepAux w s j)
      ⟨s, wrappingSub w (pdepAux w s j) s &&& s, (wrappingSub w (pdepAux w s j) s &&& s) == 0⟩
      (subsetIterNext_active w s (pdepAux w s j))]
    rw [hstep, hbeq]
    rw [ih (j + 1) f' (by omega) (by omega)]
    rw [show List.range' j (m + 1 + 1) = j :: List.range' (j + 1) (m + 1) from
      List.range'_succ j (m + 1) 1]
    rw [List.map_cons]

theorem getLast?_range' : ∀ m j, (List.range' j (m + 1)).getLast? = some (j + m) := by
  intro m
  induction m with
  | zero => intro j; rfl
  | succ m ih =>
    intro j
    rw [show List.range' j (m + 1 + 1) = j :: List.range' (j + 1) (m + 1) from
      List.range'_succ j (m + 1) 1]
    rw [show List.range' (j + 1) (m + 1) = (j + 1) :: List.range' (j + 1 + 1) m from
      List.range'_succ (j + 1) m 1]
    rw [List.getLast?_cons_cons]
    rw [← show List.range' (j + 1) (m + 1) = (j + 1) :: List.range' (j + 1 + 1) m from
      List.range'_succ (j + 1) m 1]
    rw [ih (j + 1)]
    congr 1
    omega

/-- Claim C3: for every set `s` (any `w`-bit value, in particular every set
satisfying the valid-bits invariant) with popcount `k`, the subset iterator yields,
over any fuel of at least `2 ^ k` calls, exactly `2 ^ k` sets, in strictly
ascending numeric order of backing value (hence pairwise distinct, each exactly
once), each a submask of `s`, starting with the empty set and ending with `s`
itself; when `s` is empty the output is exactly the one-element list containing
the empty set. -/
theorem subsets_iterator_enumeration (w s f : Nat) (hs : s < 2 ^ w)
    (hf : 2 ^ countOnes w s ≤ f) :
    (subsetIterRun w f (subsetIterNew s)).length = 2 ^ countOnes w s
    ∧ (subsetIterRun w f (subsetIterNew s)).Pairwise (· < ·)
    ∧ (∀ x ∈ subsetIterRun w f (subsetIterNew s), x &&& s = x)
    ∧ (subsetIterRun w f (subsetIterNew s)).head? = some 0
    ∧ (subsetIterRun w f (subsetIterNew s)).getLast? = some s
    ∧ (s = 0 → subsetIterRun w f (subsetIterNew s) = [0]) := by
  have hpow : 0 < 2 ^ countOnes w s := Nat.pos_pow_of_pos _ (by omega)
  obtain ⟨m, hm⟩ : ∃ m, 2 ^ countOnes w s = m + 1 := ⟨2 ^ countOnes w s - 1, by omega⟩
  have hnew : subsetIterNew s = ⟨s, pdepAux w s 0, false⟩ := by
    unfold subsetIterNew
    rw [pdepAux_zero]
  have hrun : subsetIterRun w f (subsetIterNew s)
      = (List.range' 0 (m + 1)).map (fun t => pdepAux w s t) := by
    rw [hnew]
    exact subsetRun_from w s hs m 0 f (by omega) (by omega)
  refine ⟨?_, ?_, ?_, ?_, ?_, ?_⟩
  · rw [hrun, List.length_map, List.length_range']
    omega
  · rw [hrun, List.pairwise_map]
    refine List.Pairwise.imp_of_mem ?_ (List.pairwise_lt_range' 0 (m + 1) 1)
    intro a b ha hb hab
    have hbm : b < m + 1 := by
      have := List.mem_range'_1.mp hb
      omega
    exact pdepAux_mono w s a b hab (by omega)
  · intro x hx
    rw [hrun] at hx
    obtain ⟨t, -, rfl⟩ := List.mem_map.mp hx
    exact subset_of_land_eq (pdepAux_subset w s t)
  · rw [hrun, show List.range' 0 (m + 1) = 0 :: List.range' 1 m from
      List.range'_succ 0 m 1, List.map_cons, List.head?_cons, pdepAux_zero]
  · rw [hrun, List.getLast?_map, getLast?_range' m 0]
    show some (pdepAux w s (0 + m)) = some s
    have : 0 + m = 2 ^ countOnes w s - 1 := by omega
    rw [this, pdepAux_last w s hs]
  · intro hs0
    subst hs0
    have hm0 : m = 0 := by
      have h1 := hm
      rw [countOnes_zero w, Nat.pow_zero] at h1
      omega
    subst hm0
    rw [hrun]
    simp [List.range', pdepAux_zero]

theorem subsets_iterator_enumeration_witness :
    (5 : Nat) < 2 ^ 4 ∧ 2 ^ countOnes 4 5 ≤ 8 ∧
    (subsetIterRun 4 8 (subsetIterNew 5)).length = 2 ^ countOnes 4 5 ∧
    (subsetIterRun 4 8 (subsetIterNew 5)).getLast? = some 5 :=
  ⟨by decide, by decide,
   (subsets_iterator_enumeration 4 5 8 (by decide) (by decide)).1,
   (subsets_iterator_enumeration 4 5 8 (by decide) (by decide)).2.2.2.2.1⟩
